import Mathlib

/-!
Verification of the marketdata order-book / trade-history core.

The Python source (src/package) is embedded shallowly:

* `Decimal` values (context precision 8 significant digits, default
  rounding ROUND_HALF_EVEN) are modelled as exact rationals together with
  an explicit rounding function `round8`: every arithmetic operation the
  source performs under the decimal context (the division in
  `Offer.price`, the multiplication in `Offer.from_price`) is followed by
  `round8`, which rounds its argument to 8 significant decimal digits,
  ties to even, exactly as the Python decimal context does.
* `sortedcontainers.SortedDict` is modelled as an association list kept
  strictly ascending in its key; `SortedListWithKey` as a list kept
  ascending in the sort key (new elements inserted after equal keys, the
  bisect-right behaviour of `SortedList.add`).
* the process-wide `itertools.count` token counter is threaded
  explicitly: operations that draw sequence numbers take the current
  counter value and return the advanced one.
* fallible operations (`del`/`remove` raising KeyError or ValueError,
  `trades[-1]` raising IndexError on an empty history) return `Option`,
  with `none` standing for the raised error.
-/

/-! ## Decimal model: rounding to 8 significant digits, half to even -/

/-- Fuel-indexed floor of log base 10; `natLog10Aux fuel n` is the floor
of log10 n whenever `n ≤ fuel` and `1 ≤ n`. -/
def natLog10Aux : Nat → Nat → Nat
  | 0, _ => 0
  | fuel + 1, n => if n < 10 then 0 else natLog10Aux fuel (n / 10) + 1

/-- Floor of log base 10 of a natural number (0 for `n = 0`). -/
def natLog10 (n : Nat) : Nat := natLog10Aux n n

/-- Fuel-indexed ceiling of log base 10; `natClog10Aux fuel m` is the
least `k` with `m ≤ 10 ^ k` whenever `m ≤ fuel`. -/
def natClog10Aux : Nat → Nat → Nat
  | 0, _ => 0
  | fuel + 1, m => if m ≤ 1 then 0 else natClog10Aux fuel ((m + 9) / 10) + 1

/-- Ceiling of log base 10 of a natural number. -/
def natClog10 (m : Nat) : Nat := natClog10Aux m m

/-- The decimal exponent (decade) of a positive rational: the unique
`e : Int` with `10 ^ e ≤ q < 10 ^ (e+1)`.  For `1 ≤ q` it is the floor
log10 of the integer part; for `q < 1` it is minus the ceiling log10 of
the ceiling of the reciprocal. -/
def decade (q : Rat) : Int :=
  if 1 ≤ q then (natLog10 (q.num.toNat / q.den) : Int)
  else -((natClog10 ((q.den + q.num.toNat - 1) / q.num.toNat)) : Int)

/-- Round a rational to the nearest integer, ties to even
(the ROUND_HALF_EVEN mode of the Python decimal default context). -/
def rhe (q : Rat) : Int :=
  if q - ⌊q⌋ < 1/2 then ⌊q⌋
  else if 1/2 < q - ⌊q⌋ then ⌊q⌋ + 1
  else if ⌊q⌋ % 2 = 0 then ⌊q⌋ else ⌊q⌋ + 1

/-- Round a positive rational to 8 significant decimal digits, half to
even: scale the decade-`e` mantissa to an 8-digit integer position,
round it, and scale back. -/
def round8pos (q : Rat) : Rat :=
  (rhe (q * 10 ^ (7 - decade q)) : Rat) * 10 ^ (decade q - 7)

/-- Round a rational to 8 significant decimal digits, half to even:
the result of any arithmetic operation in the source's decimal context
(`decimal_getcontext().prec = 8`, src/package/basic_types.py line 7). -/
def round8 (q : Rat) : Rat :=
  if q = 0 then 0
  else if q < 0 then -round8pos (-q)
  else round8pos q

/-! ## Data model (src/package/basic_types.py) -/

/-- A currency (and issuer); src/package/basic_types.py `Currency`. -/
structure Currency where
  symbol : String
  issuer : String
deriving DecidableEq

/-- A currency (asset) pair for trading; src/package/basic_types.py
`Market`. -/
structure Market where
  base : Currency
  counter : Currency
deriving DecidableEq

/-- An offer; src/package/basic_types.py `Offer`.  The Python class is
abstract with subclasses `BuyOffer` / `SellOffer` fixing `is_bid`; per
the spec's design note the polymorphic side is embedded as an explicit
boolean flag carried alongside the shared fields. -/
structure Offer where
  is_bid : Bool
  base_amount : Rat
  base_remaining : Rat
  counter_amount : Rat
  counter_remaining : Rat
deriving DecidableEq

/-- `Offer.__init__`: both `*_remaining` fields start equal to the
corresponding amounts (`Decimal` construction from a `Decimal` is
exact, so no rounding happens here). -/
def Offer.make (b : Bool) (base_amount counter_amount : Rat) : Offer :=
  ⟨b, base_amount, base_amount, counter_amount, counter_amount⟩

/-- `BuyOffer(base_amount, counter_amount)`. -/
def BuyOffer (base_amount counter_amount : Rat) : Offer :=
  Offer.make true base_amount counter_amount

/-- `SellOffer(base_amount, counter_amount)`. -/
def SellOffer (base_amount counter_amount : Rat) : Offer :=
  Offer.make false base_amount counter_amount

/-- `Offer.price`: `counter_amount / base_amount`, a decimal context
division, hence rounded to 8 significant digits. -/
def Offer.price (o : Offer) : Rat :=
  round8 (o.counter_amount / o.base_amount)

/-- `Offer.price_remaining`: `counter_remaining / base_remaining`. -/
def Offer.price_remaining (o : Offer) : Rat :=
  round8 (o.counter_remaining / o.base_remaining)

/-- `Offer.from_price`: `counter_amount = base_amount * price` under the
decimal context (rounded to 8 significant digits), then the ordinary
constructor.  The class method's `cls` is the side flag here. -/
def Offer.from_price (b : Bool) (base_amount price : Rat) : Offer :=
  Offer.make b base_amount (round8 (base_amount * price))

/-- A trade; src/package/basic_types.py `Trade`.  The `datetime`
timestamp is embedded as an integer (timestamps are totally ordered and
only compared). -/
structure Trade where
  time : Int
  offer : Offer
deriving DecidableEq

/-- `Trade.is_bid`: derived from the underlying offer's side. -/
def Trade.is_bid (t : Trade) : Bool := t.offer.is_bid

/-- Modelled from the spec: `Trade.sort_by_time` is referenced by
`History.__init__` (src/package/trades.py line 24) but defined nowhere
under src/.  The spec states the history is "ordered ascending by
timestamp", so the sort key of a trade is its timestamp. -/
def Trade.sort_by_time (t : Trade) : Int := t.time

/-! ## Order token (src/package/orderbook.py `OfferToken`) -/

/-- Token for an offer in the order book: the signed price key and the
global sequence number; src/package/orderbook.py `OfferToken`. -/
structure OfferToken where
  price : Rat
  time : Nat
deriving DecidableEq

/-- `OfferToken.__new__`: the key is `-offer.price` for bids and
`offer.price` for asks, paired with the next value of the global
counter (passed in explicitly as `t`). -/
def OfferToken.derive (o : Offer) (t : Nat) : OfferToken :=
  ⟨if o.is_bid then -o.price else o.price, t⟩

/-- `OfferToken.is_bid`: the side flag recovered from the sign of the
price key. -/
def OfferToken.is_bid (tok : OfferToken) : Bool :=
  decide (tok.price < 0)

/-- Python `NamedTuple` comparison of tokens: lexicographic on
`(price, time)`. -/
def tokLt (a b : OfferToken) : Prop :=
  a.price < b.price ∨ (a.price = b.price ∧ a.time < b.time)

instance (a b : OfferToken) : Decidable (tokLt a b) := by
  unfold tokLt; infer_instance

/-! ## Sorted association lists (the SortedDict model) -/

/-- Insert into an association list kept strictly ascending by `tokLt`
key, replacing the value when the key is already bound (the
`SortedDict.__setitem__` semantics). -/
def insertSorted (k : OfferToken) (v : Offer) :
    List (OfferToken × Offer) → List (OfferToken × Offer)
  | [] => [(k, v)]
  | p :: rest =>
    if tokLt k p.1 then (k, v) :: p :: rest
    else if k = p.1 then (k, v) :: rest
    else p :: insertSorted k v rest

/-- Delete the binding of `k`; `none` when `k` is unbound (a raised
`KeyError`). -/
def deleteSorted (k : OfferToken) :
    List (OfferToken × Offer) → Option (List (OfferToken × Offer))
  | [] => none
  | p :: rest =>
    if k = p.1 then some rest
    else (deleteSorted k rest).map (p :: ·)

/-- Look up the binding of `k`. -/
def lookupSorted (k : OfferToken) :
    List (OfferToken × Offer) → Option Offer
  | [] => none
  | p :: rest => if k = p.1 then some p.2 else lookupSorted k rest

/-- `SortedDict.update` with a list of pairs: net effect of binding each
pair in list order. -/
def updateMap (m : List (OfferToken × Offer))
    (ps : List (OfferToken × Offer)) : List (OfferToken × Offer) :=
  ps.foldl (fun acc p => insertSorted p.1 p.2 acc) m

/-! ## Order book (src/package/orderbook.py `Orderbook`) -/

/-- The order book state: one market, the `bids` and `asks` sorted maps
from token to offer. -/
structure Orderbook where
  market : Market
  bids : List (OfferToken × Offer)
  asks : List (OfferToken × Offer)
deriving DecidableEq

/-- `Orderbook.__init__`: an empty book for a market. -/
def Orderbook.init (m : Market) : Orderbook := ⟨m, [], []⟩

/-- `Orderbook.clear`: removes all offers from both sides. -/
def Orderbook.clear (s : Orderbook) : Orderbook :=
  { s with bids := [], asks := [] }

/-- `Orderbook.add`: derive a token (consuming counter value `c`),
insert the pair into `bids` or `asks` by the offer's side, return the
token.  The advanced counter is returned as the last component. -/
def Orderbook.add (s : Orderbook) (c : Nat) (o : Offer) :
    OfferToken × Orderbook × Nat :=
  let tok := OfferToken.derive o c
  if o.is_bid then (tok, { s with bids := insertSorted tok o s.bids }, c + 1)
  else (tok, { s with asks := insertSorted tok o s.asks }, c + 1)

/-- The first loop of `Orderbook.add_many`: derive one token per offer,
consuming consecutive counter values. -/
def tokenize (c : Nat) : List Offer → List (OfferToken × Offer)
  | [] => []
  | o :: os => (OfferToken.derive o c, o) :: tokenize (c + 1) os

/-- `Orderbook.add_many`: derive all tokens in input order, partition
the pairs by side, bulk-update `asks` then `bids` (distinct fields), and
return the tokens positionally. -/
def Orderbook.add_many (s : Orderbook) (c : Nat) (offers : List Offer) :
    List OfferToken × Orderbook × Nat :=
  let pairs := tokenize c offers
  (pairs.map Prod.fst,
   { s with
       asks := updateMap s.asks (pairs.filter fun p => !p.2.is_bid),
       bids := updateMap s.bids (pairs.filter fun p => p.2.is_bid) },
   c + offers.length)

/-- `Orderbook.remove`: delete the token's entry from `bids` if the
token is a bid else from `asks`; `none` models the raised `KeyError`
when the entry is absent. -/
def Orderbook.remove (s : Orderbook) (tok : OfferToken) : Option Orderbook :=
  if tok.is_bid then
    (deleteSorted tok s.bids).map (fun b => { s with bids := b })
  else
    (deleteSorted tok s.asks).map (fun a => { s with asks := a })

/-! ## Trade history (src/package/trades.py `History`) -/

/-- The trade history state: one market and the time-sorted trade
list. -/
structure History where
  market : Market
  trades : List Trade
deriving DecidableEq

/-- `History.__init__`: an empty history for a market. -/
def History.init (m : Market) : History := ⟨m, []⟩

/-- `SortedListWithKey.add` with the `sort_by_time` key: insert after
all elements whose key is not greater (bisect-right). -/
def insertByTime (tr : Trade) : List Trade → List Trade
  | [] => [tr]
  | t :: rest =>
    if t.sort_by_time ≤ tr.sort_by_time then t :: insertByTime tr rest
    else tr :: t :: rest

/-- `History.last`: the element at index -1; `none` models the raised
`IndexError` on an empty history. -/
def History.last (h : History) : Option Trade := h.trades.getLast?

/-- `History.clear`: removes all trades. -/
def History.clear (h : History) : History := { h with trades := [] }

/-- `History.add`: key-ordered insertion. -/
def History.add (h : History) (tr : Trade) : History :=
  { h with trades := insertByTime tr h.trades }

/-- `History.add_many`: `SortedList.update`, whose net effect equals
adding each trade in list order. -/
def History.add_many (h : History) (trs : List Trade) : History :=
  trs.foldl History.add h

/-- Remove the first element equal to `tr`; `none` when no equal
element exists (a raised `ValueError`). -/
def removeFirstTrade (tr : Trade) : List Trade → Option (List Trade)
  | [] => none
  | t :: rest =>
    if t = tr then some rest
    else (removeFirstTrade tr rest).map (t :: ·)

/-- `History.remove`: remove one exact matching entry by value
equality; `none` models the raised `ValueError`. -/
def History.remove (h : History) (tr : Trade) : Option History :=
  (removeFirstTrade tr h.trades).map (fun l => { h with trades := l })

/-! ## Reachable states -/

/-- Order-book states reachable from the empty book by clear, add,
add_many and remove, on offers satisfying the documented Offer
invariants (positive amounts).  The counter component models the
process-wide `itertools.count`: it may start anywhere and may advance
between operations (other books share it). -/
inductive ReachOB : Orderbook → Nat → Prop where
  | init (m : Market) (c : Nat) : ReachOB (Orderbook.init m) c
  | clear {s c} : ReachOB s c → ReachOB s.clear c
  | tick {s c c'} : ReachOB s c → c ≤ c' → ReachOB s c'
  | add {s c} (o : Offer) : ReachOB s c →
      0 < o.base_amount → 0 < o.counter_amount →
      ReachOB (s.add c o).2.1 (s.add c o).2.2
  | add_many {s c} (offers : List Offer) : ReachOB s c →
      (∀ o ∈ offers, 0 < o.base_amount ∧ 0 < o.counter_amount) →
      ReachOB (s.add_many c offers).2.1 (s.add_many c offers).2.2
  | remove {s c tok s'} : ReachOB s c → s.remove tok = some s' →
      ReachOB s' c

/-- Trade-history states reachable from the empty history by clear,
add, add_many and remove. -/
inductive ReachHist : History → Prop where
  | init (m : Market) : ReachHist (History.init m)
  | clear {h} : ReachHist h → ReachHist h.clear
  | add {h} (tr : Trade) : ReachHist h → ReachHist (h.add tr)
  | add_many {h} (trs : List Trade) : ReachHist h → ReachHist (h.add_many trs)
  | remove {h tr h'} : ReachHist h → h.remove tr = some h' → ReachHist h'

/-! ## Lemmas about the decimal rounding model -/

lemma natLog10Aux_le : ∀ fuel n : Nat, 1 ≤ n → n ≤ fuel →
    10 ^ natLog10Aux fuel n ≤ n := by
  intro fuel
  induction fuel with
  | zero => intro n h1 h2; omega
  | succ f ih =>
    intro n h1 h2
    unfold natLog10Aux
    split
    · simpa
    · rename_i hn
      have h10 : 10 ≤ n := by omega
      have hd1 : 1 ≤ n / 10 := (Nat.one_le_div_iff (by norm_num)).mpr h10
      have hdf : n / 10 ≤ f := by
        have := Nat.div_lt_self (by omega : 0 < n) (by norm_num : 1 < 10)
        omega
      have hrec := ih (n / 10) hd1 hdf
      have hmul := Nat.div_mul_le_self n 10
      calc 10 ^ (natLog10Aux f (n / 10) + 1)
          = 10 ^ natLog10Aux f (n / 10) * 10 := by rw [pow_succ]
        _ ≤ n / 10 * 10 := Nat.mul_le_mul_right 10 hrec
        _ ≤ n := hmul

lemma pow_natLog10_le (n : Nat) (h : 1 ≤ n) : 10 ^ natLog10 n ≤ n :=
  natLog10Aux_le n n h le_rfl

lemma natClog10Aux_ge : ∀ fuel m : Nat, m ≤ fuel →
    m ≤ 10 ^ natClog10Aux fuel m := by
  intro fuel
  induction fuel with
  | zero => intro m h; simp [natClog10Aux]; omega
  | succ f ih =>
    intro m h
    unfold natClog10Aux
    split
    · simpa
    · rename_i hm
      have hm2 : 2 ≤ m := by omega
      have hq : (m + 9) / 10 ≤ f := by
        have hlt : (m + 9) / 10 < m := by
          rw [Nat.div_lt_iff_lt_mul (by norm_num : 0 < 10)]
          omega
        omega
      have hrec := ih ((m + 9) / 10) hq
      have hdm := Nat.div_add_mod (m + 9) 10
      have hmod : (m + 9) % 10 < 10 := Nat.mod_lt _ (by norm_num)
      calc m ≤ 10 * ((m + 9) / 10) := by omega
        _ ≤ 10 * 10 ^ natClog10Aux f ((m + 9) / 10) :=
            Nat.mul_le_mul_left 10 hrec
        _ = 10 ^ (natClog10Aux f ((m + 9) / 10) + 1) := by rw [pow_succ]; ring

lemma le_pow_natClog10 (m : Nat) : m ≤ 10 ^ natClog10 m :=
  natClog10Aux_ge m m le_rfl

lemma zpow_decade_le (q : Rat) (hq : 0 < q) : (10 : Rat) ^ decade q ≤ q := by
  have hden : 0 < q.den := q.den_pos
  have hnum : 0 < q.num := Rat.num_pos.mpr hq
  have hq_eq : ((q.num : Rat)) / ((q.den : Rat)) = q := Rat.num_div_den q
  have hdenQ : (0 : Rat) < (q.den : Rat) := by exact_mod_cast hden
  have htn : ((q.num.toNat : Nat) : Rat) = (q.num : Rat) := by
    exact_mod_cast congrArg (fun z : Int => (z : Rat))
      (Int.toNat_of_nonneg (le_of_lt hnum))
  unfold decade
  split
  · rename_i h1
    rw [zpow_natCast]
    have hdn : q.den ≤ q.num.toNat := by
      have h1' : (1 : Rat) * (q.den : Rat) ≤ (q.num : Rat) := by
        rw [← hq_eq] at h1
        have := (le_div_iff₀ hdenQ).mp h1
        linarith
      have : (q.den : Int) ≤ q.num := by
        exact_mod_cast (by linarith : ((q.den : Rat)) ≤ (q.num : Rat))
      omega
    set m := q.num.toNat / q.den with hm
    have hm1 : 1 ≤ m := (Nat.one_le_div_iff hden).mpr hdn
    have hlog : 10 ^ natLog10 m ≤ m := pow_natLog10_le m hm1
    have hmq : (m : Rat) ≤ q := by
      have hmul : m * q.den ≤ q.num.toNat := Nat.div_mul_le_self _ _
      have hmulQ : (m : Rat) * (q.den : Rat) ≤ (q.num : Rat) := by
        have hc : ((m * q.den : Nat) : Rat) ≤ ((q.num.toNat : Nat) : Rat) := by
          exact_mod_cast hmul
        rw [htn] at hc
        push_cast at hc
        linarith
      rw [← hq_eq]
      exact (le_div_iff₀ hdenQ).mpr hmulQ
    calc ((10 : Rat)) ^ natLog10 m = ((10 ^ natLog10 m : Nat) : Rat) := by push_cast; ring
      _ ≤ (m : Rat) := by exact_mod_cast hlog
      _ ≤ q := hmq
  · rename_i h1
    set n := q.num.toNat with hn
    have hn1 : 1 ≤ n := by omega
    set m := (q.den + n - 1) / n with hm
    set k := natClog10 m with hk
    have hd_le : q.den ≤ n * m := by
      have key := Nat.div_add_mod (q.den + n - 1) n
      have hmod : (q.den + n - 1) % n < n := Nat.mod_lt _ (by omega)
      rw [← hm] at key
      generalize hgen1 : n * m = e at key ⊢
      generalize hgen2 : (q.den + n - 1) % n = r at key hmod
      omega
    have hmk : m ≤ 10 ^ k := le_pow_natClog10 m
    have hd10 : q.den ≤ n * 10 ^ k := le_trans hd_le (Nat.mul_le_mul_left n hmk)
    have hpowQ : (0 : Rat) < (10 : Rat) ^ k := by positivity
    have h1q : (1 : Rat) ≤ q * 10 ^ k := by
      have hcast : ((q.den : Nat) : Rat) ≤ ((n : Nat) : Rat) * ((10 : Rat)) ^ k := by
        have hcc : ((q.den : Nat) : Rat) ≤ (((n * 10 ^ k : Nat)) : Rat) := by
          exact_mod_cast hd10
        push_cast at hcc ⊢
        linarith
      have hnq : ((n : Nat) : Rat) = (q.num : Rat) := by rw [hn]; exact htn
      rw [← hq_eq]
      rw [div_mul_eq_mul_div, le_div_iff₀ hdenQ]
      rw [hnq] at hcast
      linarith
    have hneg : (10 : Rat) ^ (-(k : Int)) = 1 / (10 : Rat) ^ k := by
      rw [zpow_neg, zpow_natCast, inv_eq_one_div]
    rw [hneg, div_le_iff₀ hpowQ]
    linarith

lemma rhe_sub_le (q : Rat) : |(rhe q : Rat) - q| ≤ 1 / 2 := by
  have hfl : ((⌊q⌋ : Int) : Rat) ≤ q := Int.floor_le q
  have hfu : q < ((⌊q⌋ : Int) : Rat) + 1 := Int.lt_floor_add_one q
  unfold rhe
  split_ifs with h1 h2 h3 <;> rw [abs_le] <;> constructor <;> push_cast <;> linarith

lemma round8pos_sub_le (q : Rat) (hq : 0 < q) :
    |round8pos q - q| ≤ q / 20000000 := by
  set e := decade q with he
  have hpow : (10 : Rat) ^ e ≤ q := zpow_decade_le q hq
  have h10 : (10 : Rat) ^ (7 - e) * 10 ^ (e - 7) = 1 := by
    rw [← zpow_add₀ (by norm_num : (10 : Rat) ≠ 0)]
    norm_num
  have key : round8pos q - q =
      ((rhe (q * 10 ^ (7 - e)) : Rat) - q * 10 ^ (7 - e)) * 10 ^ (e - 7) := by
    unfold round8pos
    rw [← he]
    have hq' : q = q * (10 ^ (7 - e) * 10 ^ (e - 7)) := by rw [h10]; ring
    calc (rhe (q * 10 ^ (7 - e)) : Rat) * 10 ^ (e - 7) - q
        = (rhe (q * 10 ^ (7 - e)) : Rat) * 10 ^ (e - 7)
          - q * (10 ^ (7 - e) * 10 ^ (e - 7)) := by rw [← hq']
      _ = ((rhe (q * 10 ^ (7 - e)) : Rat) - q * 10 ^ (7 - e)) * 10 ^ (e - 7) := by
          ring
  have hp7 : (0 : Rat) < (10 : Rat) ^ (e - 7) := by
    apply zpow_pos
    norm_num
  have hbound := rhe_sub_le (q * 10 ^ (7 - e))
  have hsplit : (10 : Rat) ^ (e - 7) = 10 ^ e * 10 ^ (-(7 : Int)) := by
    rw [← zpow_add₀ (by norm_num : (10 : Rat) ≠ 0)]
    congr 1
  have hsmall : (10 : Rat) ^ (e - 7) ≤ q * 10 ^ (-(7 : Int)) := by
    rw [hsplit]
    have hpos7 : (0 : Rat) < (10 : Rat) ^ (-(7 : Int)) := by
      apply zpow_pos
      norm_num
    exact mul_le_mul_of_nonneg_right hpow (le_of_lt hpos7)
  have hval7 : (10 : Rat) ^ (-(7 : Int)) = 1 / 10000000 := by
    rw [zpow_neg]
    norm_num
  calc |round8pos q - q|
      = |(rhe (q * 10 ^ (7 - e)) : Rat) - q * 10 ^ (7 - e)| * |(10 : Rat) ^ (e - 7)| := by
        rw [key, abs_mul]
    _ ≤ (1 / 2) * (10 : Rat) ^ (e - 7) := by
        rw [abs_of_pos hp7]
        exact mul_le_mul_of_nonneg_right hbound (le_of_lt hp7)
    _ ≤ (1 / 2) * (q * 10 ^ (-(7 : Int))) :=
        mul_le_mul_of_nonneg_left hsmall (by norm_num)
    _ = q / 20000000 := by rw [hval7]; ring

lemma round8_eq_pos (q : Rat) (hq : 0 < q) : round8 q = round8pos q := by
  unfold round8
  rw [if_neg (ne_of_gt hq), if_neg (not_lt.mpr (le_of_lt hq))]

lemma round8_sub_le (q : Rat) (hq : 0 < q) :
    |round8 q - q| ≤ q / 20000000 := by
  rw [round8_eq_pos q hq]
  exact round8pos_sub_le q hq

lemma round8_pos (q : Rat) (hq : 0 < q) : 0 < round8 q := by
  have h := round8_sub_le q hq
  rw [abs_le] at h
  have := h.1
  linarith

lemma Offer.price_pos (o : Offer) (hb : 0 < o.base_amount)
    (hc : 0 < o.counter_amount) : 0 < o.price :=
  round8_pos _ (div_pos hc hb)

/-! ## Lemmas about the sorted-map model -/

lemma tokLt_trans {a b c : OfferToken} (h1 : tokLt a b) (h2 : tokLt b c) :
    tokLt a c := by
  unfold tokLt at *
  rcases h1 with h1 | ⟨h1, h1'⟩ <;> rcases h2 with h2 | ⟨h2, h2'⟩
  · exact Or.inl (lt_trans h1 h2)
  · exact Or.inl (h2 ▸ h1)
  · exact Or.inl (h1 ▸ h2)
  · exact Or.inr ⟨h1.trans h2, lt_trans h1' h2'⟩

lemma tokLt_irrefl (a : OfferToken) : ¬tokLt a a := by
  unfold tokLt
  simp

lemma tokLt_of_not {a b : OfferToken} (h1 : ¬tokLt a b) (h2 : a ≠ b) :
    tokLt b a := by
  unfold tokLt at *
  rcases lt_trichotomy b.price a.price with h | h | h
  · exact Or.inl h
  · refine Or.inr ⟨h, ?_⟩
    have hnt : ¬a.time < b.time := fun ht => h1 (Or.inr ⟨h.symm, ht⟩)
    have hne : a.time ≠ b.time := by
      intro he
      apply h2
      cases a; cases b; simp_all
    omega
  · exact absurd (Or.inl h) h1

/-- Relation between entries of a sorted map: strictly ascending keys. -/
def keyLt (p q : OfferToken × Offer) : Prop := tokLt p.1 q.1

lemma insertSorted_nil (k : OfferToken) (v : Offer) :
    insertSorted k v [] = [(k, v)] := rfl

lemma insertSorted_cons (k : OfferToken) (v : Offer) (x : OfferToken × Offer)
    (rest : List (OfferToken × Offer)) :
    insertSorted k v (x :: rest) =
      if tokLt k x.1 then (k, v) :: x :: rest
      else if k = x.1 then (k, v) :: rest
      else x :: insertSorted k v rest := rfl

lemma mem_insertSorted {k : OfferToken} {v : Offer}
    {l : List (OfferToken × Offer)} {p : OfferToken × Offer}
    (h : p ∈ insertSorted k v l) : p = (k, v) ∨ p ∈ l := by
  induction l with
  | nil => simpa [insertSorted_nil] using h
  | cons x rest ih =>
    rw [insertSorted_cons] at h
    split_ifs at h with h1 h2
    · rcases List.mem_cons.mp h with h' | h'
      · exact Or.inl h'
      · exact Or.inr h'
    · rcases List.mem_cons.mp h with h' | h'
      · exact Or.inl h'
      · exact Or.inr (List.mem_cons_of_mem x h')
    · rcases List.mem_cons.mp h with h' | h'
      · exact Or.inr (h' ▸ List.mem_cons_self x rest)
      · rcases ih h' with h'' | h''
        · exact Or.inl h''
        · exact Or.inr (List.mem_cons_of_mem x h'')

lemma pairwise_insertSorted {k : OfferToken} {v : Offer}
    {l : List (OfferToken × Offer)} (h : l.Pairwise keyLt) :
    (insertSorted k v l).Pairwise keyLt := by
  induction l with
  | nil => simp [insertSorted_nil]
  | cons x rest ih =>
    rcases List.pairwise_cons.mp h with ⟨hx, hrest⟩
    rw [insertSorted_cons]
    split_ifs with h1 h2
    · refine List.pairwise_cons.mpr ⟨?_, h⟩
      intro p hp
      rcases List.mem_cons.mp hp with h' | h'
      · exact h' ▸ h1
      · exact tokLt_trans h1 (hx p h')
    · refine List.pairwise_cons.mpr ⟨?_, hrest⟩
      intro p hp
      exact h2 ▸ hx p hp
    · refine List.pairwise_cons.mpr ⟨?_, ih hrest⟩
      intro p hp
      rcases mem_insertSorted hp with h' | h'
      · subst h'
        exact tokLt_of_not h1 h2
      · exact hx p h'

lemma updateMap_nil (m : List (OfferToken × Offer)) : updateMap m [] = m := rfl

lemma updateMap_cons (m : List (OfferToken × Offer)) (p : OfferToken × Offer)
    (ps : List (OfferToken × Offer)) :
    updateMap m (p :: ps) = updateMap (insertSorted p.1 p.2 m) ps := rfl

lemma mem_updateMap {m ps : List (OfferToken × Offer)}
    {p : OfferToken × Offer} (h : p ∈ updateMap m ps) :
    (∃ q ∈ ps, p = (q.1, q.2)) ∨ p ∈ m := by
  induction ps generalizing m with
  | nil => exact Or.inr h
  | cons x rest ih =>
    rw [updateMap_cons] at h
    rcases ih h with h' | h'
    · rcases h' with ⟨q, hq, he⟩
      exact Or.inl ⟨q, List.mem_cons_of_mem x hq, he⟩
    · rcases mem_insertSorted h' with h'' | h''
      · exact Or.inl ⟨x, List.mem_cons_self x rest, h''⟩
      · exact Or.inr h''

lemma pairwise_updateMap {m ps : List (OfferToken × Offer)}
    (h : m.Pairwise keyLt) : (updateMap m ps).Pairwise keyLt := by
  induction ps generalizing m with
  | nil => exact h
  | cons x rest ih =>
    rw [updateMap_cons]
    exact ih (pairwise_insertSorted h)

lemma deleteSorted_eq_some {k : OfferToken} :
    ∀ {l l' : List (OfferToken × Offer)}, deleteSorted k l = some l' →
    ∃ v l1 l2, l = l1 ++ (k, v) :: l2 ∧ l' = l1 ++ l2 ∧ ∀ p ∈ l1, p.1 ≠ k := by
  intro l
  induction l with
  | nil => intro l' h; simp [deleteSorted] at h
  | cons x rest ih =>
    intro l' h
    unfold deleteSorted at h
    split_ifs at h with h1
    · refine ⟨x.2, [], rest, ?_, ?_, by simp⟩
      · subst h1
        simp
      · simpa using h.symm
    · rcases Option.map_eq_some'.mp h with ⟨rest', hr, he⟩
      rcases ih hr with ⟨v, l1, l2, he1, he2, hne⟩
      refine ⟨v, x :: l1, l2, by rw [he1]; rfl, by rw [← he, he2]; rfl, ?_⟩
      intro p hp
      rcases List.mem_cons.mp hp with h' | h'
      · rw [h']
        exact fun hx => h1 hx.symm
      · exact hne p h'

lemma deleteSorted_none_iff {k : OfferToken} :
    ∀ {l : List (OfferToken × Offer)},
    deleteSorted k l = none ↔ lookupSorted k l = none := by
  intro l
  induction l with
  | nil => simp [deleteSorted, lookupSorted]
  | cons x rest ih =>
    unfold deleteSorted lookupSorted
    split_ifs with h1
    · simp
    · simpa using ih

lemma lookupSorted_none_iff {k : OfferToken} :
    ∀ {l : List (OfferToken × Offer)},
    lookupSorted k l = none ↔ ∀ p ∈ l, p.1 ≠ k := by
  intro l
  induction l with
  | nil => simp [lookupSorted]
  | cons x rest ih =>
    unfold lookupSorted
    split_ifs with h1
    · simp [← h1]
    · rw [ih]
      constructor
      · intro hall p hp
        rcases List.mem_cons.mp hp with h' | h'
        · rw [h']
          exact fun hx => h1 hx.symm
        · exact hall p h'
      · intro hall p hp
        exact hall p (List.mem_cons_of_mem x hp)

lemma mem_tokenize : ∀ {c : Nat} {os : List Offer} {p : OfferToken × Offer},
    p ∈ tokenize c os → (∃ t, p.1 = OfferToken.derive p.2 t) ∧ p.2 ∈ os := by
  intro c os
  induction os generalizing c with
  | nil => intro p h; simp [tokenize] at h
  | cons o rest ih =>
    intro p h
    unfold tokenize at h
    rcases List.mem_cons.mp h with h' | h'
    · subst h'
      exact ⟨⟨c, rfl⟩, List.mem_cons_self o rest⟩
    · rcases ih h' with ⟨⟨t, ht⟩, hm⟩
      exact ⟨⟨t, ht⟩, List.mem_cons_of_mem o hm⟩

/-! ## The order-book invariant -/

/-- A well-formed bid entry: the stored offer is a bid and the key is
the negated offer price, which is strictly negative. -/
def entryBid (p : OfferToken × Offer) : Prop :=
  p.2.is_bid = true ∧ p.1.price = -p.2.price ∧ p.1.price < 0

/-- A well-formed ask entry: the stored offer is an ask and the key is
the offer price, which is strictly positive. -/
def entryAsk (p : OfferToken × Offer) : Prop :=
  p.2.is_bid = false ∧ p.1.price = p.2.price ∧ 0 < p.1.price

/-- The order-book invariant: both maps have strictly ascending keys and
hold only well-formed entries of their own side. -/
def Orderbook.Inv (s : Orderbook) : Prop :=
  s.bids.Pairwise keyLt ∧ s.asks.Pairwise keyLt ∧
    (∀ p ∈ s.bids, entryBid p) ∧ (∀ p ∈ s.asks, entryAsk p)

lemma entryBid_derive {o : Offer} {t : Nat} (hb : o.is_bid = true)
    (h1 : 0 < o.base_amount) (h2 : 0 < o.counter_amount) :
    entryBid (OfferToken.derive o t, o) := by
  have hp := o.price_pos h1 h2
  refine ⟨hb, ?_, ?_⟩
  · simp [OfferToken.derive, hb]
  · simp only [OfferToken.derive, hb, if_true]
    linarith

lemma entryAsk_derive {o : Offer} {t : Nat} (hb : o.is_bid = false)
    (h1 : 0 < o.base_amount) (h2 : 0 < o.counter_amount) :
    entryAsk (OfferToken.derive o t, o) := by
  have hp := o.price_pos h1 h2
  refine ⟨hb, ?_, ?_⟩
  · simp [OfferToken.derive, hb]
  · simp only [OfferToken.derive, hb, Bool.false_eq_true, if_false]
    linarith

lemma reachOB_inv {s : Orderbook} {c : Nat} (h : ReachOB s c) : s.Inv := by
  induction h with
  | init m c =>
    exact ⟨List.Pairwise.nil, List.Pairwise.nil, by simp [Orderbook.init],
      by simp [Orderbook.init]⟩
  | clear h ih => exact ⟨List.Pairwise.nil, List.Pairwise.nil, by simp [Orderbook.clear], by simp [Orderbook.clear]⟩
  | tick h hc ih => exact ih
  | add o h h1 h2 ih =>
    rcases ih with ⟨hpb, hpa, hb, ha⟩
    rename_i s c
    unfold Orderbook.add
    cases hob : o.is_bid with
    | true =>
      simp only [hob, if_true]
      refine ⟨pairwise_insertSorted hpb, hpa, ?_, ha⟩
      intro p hp
      rcases mem_insertSorted hp with h' | h'
      · subst h'
        exact entryBid_derive hob h1 h2
      · exact hb p h'
    | false =>
      simp only [hob, Bool.false_eq_true, if_false]
      refine ⟨hpb, pairwise_insertSorted hpa, hb, ?_⟩
      intro p hp
      rcases mem_insertSorted hp with h' | h'
      · subst h'
        exact entryAsk_derive hob h1 h2
      · exact ha p h'
  | add_many offers h hoff ih =>
    rcases ih with ⟨hpb, hpa, hb, ha⟩
    rename_i s c
    unfold Orderbook.add_many
    refine ⟨pairwise_updateMap hpb, pairwise_updateMap hpa, ?_, ?_⟩
    · intro p hp
      rcases mem_updateMap hp with ⟨q, hq, he⟩ | h'
      · rcases List.mem_filter.mp hq with ⟨hqt, hqb⟩
        rcases mem_tokenize hqt with ⟨⟨t, ht⟩, hmem⟩
        rcases hoff q.2 hmem with ⟨hq1, hq2⟩
        have : p = (OfferToken.derive q.2 t, q.2) := by
          rw [he, ht]
        rw [this]
        exact entryBid_derive (by simpa using hqb) hq1 hq2
      · exact hb p h'
    · intro p hp
      rcases mem_updateMap hp with ⟨q, hq, he⟩ | h'
      · rcases List.mem_filter.mp hq with ⟨hqt, hqb⟩
        rcases mem_tokenize hqt with ⟨⟨t, ht⟩, hmem⟩
        rcases hoff q.2 hmem with ⟨hq1, hq2⟩
        have : p = (OfferToken.derive q.2 t, q.2) := by
          rw [he, ht]
        rw [this]
        exact entryAsk_derive (by simpa using hqb) hq1 hq2
      · exact ha p h'
  | remove h hrem ih =>
    rcases ih with ⟨hpb, hpa, hb, ha⟩
    rename_i s c tok s'
    unfold Orderbook.remove at hrem
    split_ifs at hrem with h1
    · rcases Option.map_eq_some'.mp hrem with ⟨b', hdel, he⟩
      rcases deleteSorted_eq_some hdel with ⟨v, l1, l2, he1, he2, hne⟩
      subst he
      refine ⟨?_, hpa, ?_, ha⟩
      · rw [he2] at *
        rw [he1] at hpb
        exact List.Pairwise.sublist ((List.sublist_cons_self (tok, v) l2).append_left l1) hpb
      · intro p hp
        apply hb
        rw [he1]
        rw [he2] at hp
        rcases List.mem_append.mp hp with h' | h'
        · exact List.mem_append.mpr (Or.inl h')
        · exact List.mem_append.mpr (Or.inr (List.mem_cons_of_mem _ h'))
    · rcases Option.map_eq_some'.mp hrem with ⟨a', hdel, he⟩
      rcases deleteSorted_eq_some hdel with ⟨v, l1, l2, he1, he2, hne⟩
      subst he
      refine ⟨hpb, ?_, hb, ?_⟩
      · rw [he2] at *
        rw [he1] at hpa
        exact List.Pairwise.sublist ((List.sublist_cons_self (tok, v) l2).append_left l1) hpa
      · intro p hp
        apply ha
        rw [he1]
        rw [he2] at hp
        rcases List.mem_append.mp hp with h' | h'
        · exact List.mem_append.mpr (Or.inl h')
        · exact List.mem_append.mpr (Or.inr (List.mem_cons_of_mem _ h'))

/-! ## The trade-history invariant -/

/-- Time-ordering relation between trades: ascending timestamps. -/
def timeLe (a b : Trade) : Prop := a.time ≤ b.time

lemma insertByTime_nil (tr : Trade) : insertByTime tr [] = [tr] := rfl

lemma insertByTime_cons (tr t : Trade) (rest : List Trade) :
    insertByTime tr (t :: rest) =
      if t.sort_by_time ≤ tr.sort_by_time then t :: insertByTime tr rest
      else tr :: t :: rest := rfl

lemma mem_insertByTime {tr : Trade} {l : List Trade} {x : Trade}
    (h : x ∈ insertByTime tr l) : x = tr ∨ x ∈ l := by
  induction l with
  | nil => simpa [insertByTime_nil] using h
  | cons t rest ih =>
    rw [insertByTime_cons] at h
    split_ifs at h with h1
    · rcases List.mem_cons.mp h with h' | h'
      · exact Or.inr (h' ▸ List.mem_cons_self t rest)
      · rcases ih h' with h'' | h''
        · exact Or.inl h''
        · exact Or.inr (List.mem_cons_of_mem t h'')
    · rcases List.mem_cons.mp h with h' | h'
      · exact Or.inl h'
      · exact Or.inr h'

lemma pairwise_insertByTime {tr : Trade} {l : List Trade}
    (h : l.Pairwise timeLe) : (insertByTime tr l).Pairwise timeLe := by
  induction l with
  | nil => simp [insertByTime_nil]
  | cons t rest ih =>
    rcases List.pairwise_cons.mp h with ⟨ht, hrest⟩
    rw [insertByTime_cons]
    split_ifs with h1
    · refine List.pairwise_cons.mpr ⟨?_, ih hrest⟩
      intro x hx
      rcases mem_insertByTime hx with h' | h'
      · exact h' ▸ h1
      · exact ht x h'
    · refine List.pairwise_cons.mpr ⟨?_, h⟩
      intro x hx
      rcases List.mem_cons.mp hx with h' | h'
      · subst h'
        exact le_of_lt (not_le.mp h1)
      · exact le_trans (le_of_lt (not_le.mp h1)) (ht x h')

lemma removeFirstTrade_eq_some {tr : Trade} :
    ∀ {l l' : List Trade}, removeFirstTrade tr l = some l' →
    ∃ l1 l2, l = l1 ++ tr :: l2 ∧ l' = l1 ++ l2 := by
  intro l
  induction l with
  | nil => intro l' h; simp [removeFirstTrade] at h
  | cons t rest ih =>
    intro l' h
    unfold removeFirstTrade at h
    split_ifs at h with h1
    · subst h1
      exact ⟨[], rest, rfl, by simpa using h.symm⟩
    · rcases Option.map_eq_some'.mp h with ⟨rest', hr, he⟩
      rcases ih hr with ⟨l1, l2, he1, he2⟩
      exact ⟨t :: l1, l2, by rw [he1]; rfl, by rw [← he, he2]; rfl⟩

lemma pairwise_add_many_aux :
    ∀ (trs : List Trade) (h : History), h.trades.Pairwise timeLe →
    (h.add_many trs).trades.Pairwise timeLe := by
  intro trs
  induction trs with
  | nil => intro h hp; exact hp
  | cons t rest ih => intro h hp; exact ih (h.add t) (pairwise_insertByTime hp)

lemma reachHist_sorted {h : History} (hr : ReachHist h) :
    h.trades.Pairwise timeLe := by
  induction hr with
  | init m => exact List.Pairwise.nil
  | clear hr ih => exact List.Pairwise.nil
  | add tr hr ih => exact pairwise_insertByTime ih
  | add_many trs hr ih => exact pairwise_add_many_aux trs _ ih
  | remove hr heq ih =>
    rename_i h tr h'
    unfold History.remove at heq
    rcases Option.map_eq_some'.mp heq with ⟨l', hl, he⟩
    rcases removeFirstTrade_eq_some hl with ⟨l1, l2, he1, he2⟩
    rw [← he]
    show l'.Pairwise timeLe
    rw [he2]
    rw [he1] at ih
    exact List.Pairwise.sublist ((List.sublist_cons_self tr l2).append_left l1) ih

lemma getLast?_sorted_greatest :
    ∀ (l : List Trade), l.Pairwise timeLe →
    ∀ tr, l.getLast? = some tr → tr ∈ l ∧ ∀ t ∈ l, t.time ≤ tr.time := by
  intro l
  induction l with
  | nil => intro _ tr h; simp at h
  | cons a rest ih =>
    intro hp tr h
    cases rest with
    | nil =>
      simp at h
      subst h
      exact ⟨List.mem_singleton_self a, by simp [timeLe]⟩
    | cons b rest' =>
      rw [List.getLast?_cons_cons] at h
      rcases List.pairwise_cons.mp hp with ⟨ha, hp'⟩
      rcases ih hp' tr h with ⟨hmem, hbound⟩
      refine ⟨List.mem_cons_of_mem a hmem, ?_⟩
      intro t ht
      rcases List.mem_cons.mp ht with h' | h'
      · exact h' ▸ ha tr hmem
      · exact hbound t h'

lemma getLast?_none_iff (l : List Trade) : l.getLast? = none ↔ l = [] :=
  List.getLast?_eq_none_iff

/-! ## Claim theorems -/

/-- Claim C1: for every History and every sequence of add/add_many calls
(in any chronological order of timestamps, including out-of-order
backfill) and the other History operations, iterating the history's
trades yields them in ascending order of timestamp. -/
theorem history_iteration_time_ascending {h : History} (hr : ReachHist h) :
    h.trades.Pairwise (fun a b => a.time ≤ b.time) :=
  reachHist_sorted hr

/-- Witness for C1 at the spec's example: trades added with timestamps
1000, 900, 930 (10:00, 09:00, 09:30) in that call order. -/
theorem history_iteration_time_ascending_witness :
    ((((History.init ⟨⟨"BTC", ""⟩, ⟨"USD", ""⟩⟩).add
        ⟨1000, BuyOffer 1 9000⟩).add ⟨900, BuyOffer 1 9000⟩).add
        ⟨930, BuyOffer 1 9000⟩).trades.Pairwise
      (fun a b => a.time ≤ b.time) :=
  history_iteration_time_ascending
    (ReachHist.add _ (ReachHist.add _ (ReachHist.add _ (ReachHist.init _))))

/-- Claim C2: for every reachable History, `last` returns the trade with
the greatest timestamp currently held, and on an empty history it fails
with the distinguishable empty-history condition (the `IndexError` of
`trades[-1]`, modelled as `none`) rather than returning a value. -/
theorem history_last_greatest {h : History} (hr : ReachHist h) :
    (h.last = none ↔ h.trades = []) ∧
    ∀ tr, h.last = some tr → tr ∈ h.trades ∧ ∀ t ∈ h.trades, t.time ≤ tr.time := by
  constructor
  · exact getLast?_none_iff h.trades
  · intro tr htr
    exact getLast?_sorted_greatest h.trades (reachHist_sorted hr) tr htr

/-- Witness for C2 at the same concrete three-trade history. -/
theorem history_last_greatest_witness :
    (((((History.init ⟨⟨"BTC", ""⟩, ⟨"USD", ""⟩⟩).add
        ⟨1000, BuyOffer 1 9000⟩).add ⟨900, BuyOffer 1 9000⟩).add
        ⟨930, BuyOffer 1 9000⟩).last = none ↔
      ((((History.init ⟨⟨"BTC", ""⟩, ⟨"USD", ""⟩⟩).add
        ⟨1000, BuyOffer 1 9000⟩).add ⟨900, BuyOffer 1 9000⟩).add
        ⟨930, BuyOffer 1 9000⟩).trades = []) ∧
    ∀ tr, ((((History.init ⟨⟨"BTC", ""⟩, ⟨"USD", ""⟩⟩).add
        ⟨1000, BuyOffer 1 9000⟩).add ⟨900, BuyOffer 1 9000⟩).add
        ⟨930, BuyOffer 1 9000⟩).last = some tr →
      tr ∈ ((((History.init ⟨⟨"BTC", ""⟩, ⟨"USD", ""⟩⟩).add
        ⟨1000, BuyOffer 1 9000⟩).add ⟨900, BuyOffer 1 9000⟩).add
        ⟨930, BuyOffer 1 9000⟩).trades ∧
      ∀ t ∈ ((((History.init ⟨⟨"BTC", ""⟩, ⟨"USD", ""⟩⟩).add
        ⟨1000, BuyOffer 1 9000⟩).add ⟨900, BuyOffer 1 9000⟩).add
        ⟨930, BuyOffer 1 9000⟩).trades, t.time ≤ tr.time :=
  history_last_greatest
    (ReachHist.add _ (ReachHist.add _ (ReachHist.add _ (ReachHist.init _))))

/-- Iteration order required of `bids`: descending offer price, ties
broken by ascending global sequence number (earlier admission first). -/
def bidOrd (p q : OfferToken × Offer) : Prop :=
  q.2.price < p.2.price ∨ (p.2.price = q.2.price ∧ p.1.time < q.1.time)

/-- Iteration order required of `asks`: ascending offer price, ties
broken by ascending global sequence number (earlier admission first). -/
def askOrd (p q : OfferToken × Offer) : Prop :=
  p.2.price < q.2.price ∨ (p.2.price = q.2.price ∧ p.1.time < q.1.time)

/-- Claim C3: for every reachable order book, iterating `bids` in
ascending key order yields offers in descending price order and
iterating `asks` yields offers in ascending price order; two offers on
the same side with equal price appear with the earlier-admitted one
(lower global sequence number) first, regardless of which add or
add_many call admitted each. -/
theorem orderbook_iteration_ordered {s : Orderbook} {c : Nat}
    (hr : ReachOB s c) : s.bids.Pairwise bidOrd ∧ s.asks.Pairwise askOrd := by
  obtain ⟨hpb, hpa, hb, ha⟩ := reachOB_inv hr
  constructor
  · refine List.Pairwise.imp_of_mem ?_ hpb
    intro p q hp hq hlt
    obtain ⟨_, hpe, _⟩ := hb p hp
    obtain ⟨_, hqe, _⟩ := hb q hq
    rcases hlt with h | ⟨h, h'⟩
    · left
      rw [hpe, hqe] at h
      linarith
    · right
      rw [hpe, hqe] at h
      exact ⟨neg_inj.mp h, h'⟩
  · refine List.Pairwise.imp_of_mem ?_ hpa
    intro p q hp hq hlt
    obtain ⟨_, hpe, _⟩ := ha p hp
    obtain ⟨_, hqe, _⟩ := ha q hq
    rcases hlt with h | ⟨h, h'⟩
    · left
      rw [hpe, hqe] at h
      exact h
    · right
      rw [hpe, hqe] at h
      exact ⟨h, h'⟩

/-- Witness for C3 at the spec's concrete scenario: two bids (9000 then
9100) and two asks (9200 then 9050) admitted by one add_many. -/
theorem orderbook_iteration_ordered_witness :
    ((Orderbook.init ⟨⟨"BTC", ""⟩, ⟨"USD", ""⟩⟩).add_many 0
        [BuyOffer 1 9000, BuyOffer 1 9100, SellOffer 1 9200,
         SellOffer 1 9050]).2.1.bids.Pairwise bidOrd ∧
    ((Orderbook.init ⟨⟨"BTC", ""⟩, ⟨"USD", ""⟩⟩).add_many 0
        [BuyOffer 1 9000, BuyOffer 1 9100, SellOffer 1 9200,
         SellOffer 1 9050]).2.1.asks.Pairwise askOrd :=
  orderbook_iteration_ordered
    (ReachOB.add_many _ (ReachOB.init _ 0) (by decide))

/-- Claim C5: for every order book reachable from the empty book by
clear, add, add_many and remove on offers satisfying the Offer
invariants (positive amounts), no token appears in both maps, every
entry of `bids` holds a bid offer whose derived token it is keyed by,
and every entry of `asks` likewise holds an ask offer. -/
theorem orderbook_side_invariant {s : Orderbook} {c : Nat}
    (hr : ReachOB s c) :
    (∀ p ∈ s.bids, ∀ q ∈ s.asks, p.1 ≠ q.1) ∧
    (∀ p ∈ s.bids, p.2.is_bid = true ∧ p.1 = OfferToken.derive p.2 p.1.time) ∧
    (∀ p ∈ s.asks, p.2.is_bid = false ∧ p.1 = OfferToken.derive p.2 p.1.time) := by
  obtain ⟨hpb, hpa, hb, ha⟩ := reachOB_inv hr
  refine ⟨?_, ?_, ?_⟩
  · intro p hp q hq he
    obtain ⟨_, _, hneg⟩ := hb p hp
    obtain ⟨_, _, hpos⟩ := ha q hq
    rw [he] at hneg
    linarith
  · intro p hp
    obtain ⟨hbid, hpe, _⟩ := hb p hp
    refine ⟨hbid, ?_⟩
    have hd : OfferToken.derive p.2 p.1.time = ⟨-p.2.price, p.1.time⟩ := by
      simp [OfferToken.derive, hbid]
    rw [hd, ← hpe]
  · intro p hp
    obtain ⟨hask, hpe, _⟩ := ha p hp
    refine ⟨hask, ?_⟩
    have hd : OfferToken.derive p.2 p.1.time = ⟨p.2.price, p.1.time⟩ := by
      simp [OfferToken.derive, hask]
    rw [hd, ← hpe]

/-- Witness for C5 at the same concrete four-offer book. -/
theorem orderbook_side_invariant_witness :
    (∀ p ∈ (((Orderbook.init ⟨⟨"BTC", ""⟩, ⟨"USD", ""⟩⟩).add_many 0
        [BuyOffer 1 9000, BuyOffer 1 9100, SellOffer 1 9200,
         SellOffer 1 9050]).2.1).bids,
      ∀ q ∈ (((Orderbook.init ⟨⟨"BTC", ""⟩, ⟨"USD", ""⟩⟩).add_many 0
        [BuyOffer 1 9000, BuyOffer 1 9100, SellOffer 1 9200,
         SellOffer 1 9050]).2.1).asks, p.1 ≠ q.1) ∧
    (∀ p ∈ (((Orderbook.init ⟨⟨"BTC", ""⟩, ⟨"USD", ""⟩⟩).add_many 0
        [BuyOffer 1 9000, BuyOffer 1 9100, SellOffer 1 9200,
         SellOffer 1 9050]).2.1).bids,
      p.2.is_bid = true ∧ p.1 = OfferToken.derive p.2 p.1.time) ∧
    (∀ p ∈ (((Orderbook.init ⟨⟨"BTC", ""⟩, ⟨"USD", ""⟩⟩).add_many 0
        [BuyOffer 1 9000, BuyOffer 1 9100, SellOffer 1 9200,
         SellOffer 1 9050]).2.1).asks,
      p.2.is_bid = false ∧ p.1 = OfferToken.derive p.2 p.1.time) :=
  orderbook_side_invariant
    (ReachOB.add_many _ (ReachOB.init _ 0) (by decide))

/-- Claim C9: for offers with strictly positive amounts, the derived
token's side flag equals the offer's side, and every token derived from
a bid offer compares strictly less than every token derived from an ask
offer (bid keys are strictly negative, ask keys strictly positive). -/
theorem token_side_and_separation (o a : Offer) (t u : Nat)
    (hob : 0 < o.base_amount) (hoc : 0 < o.counter_amount)
    (hab : 0 < a.base_amount) (hac : 0 < a.counter_amount) :
    ((OfferToken.derive o t).is_bid = o.is_bid) ∧
    ((OfferToken.derive a u).is_bid = a.is_bid) ∧
    (o.is_bid = true → (OfferToken.derive o t).price < 0) ∧
    (a.is_bid = false → 0 < (OfferToken.derive a u).price) ∧
    (o.is_bid = true → a.is_bid = false →
      tokLt (OfferToken.derive o t) (OfferToken.derive a u)) := by
  have hop := o.price_pos hob hoc
  have hap := a.price_pos hab hac
  have hflag : ∀ (x : Offer) (n : Nat), 0 < x.price →
      (OfferToken.derive x n).is_bid = x.is_bid := by
    intro x n hxp
    cases hx : x.is_bid with
    | true =>
      simp only [OfferToken.derive, OfferToken.is_bid, hx, if_true,
        decide_eq_true_eq]
      linarith
    | false =>
      simp only [OfferToken.derive, OfferToken.is_bid, hx,
        Bool.false_eq_true, if_false, decide_eq_false_iff_not, not_lt]
      linarith
  refine ⟨hflag o t hop, hflag a u hap, ?_, ?_, ?_⟩
  · intro h1
    simp only [OfferToken.derive, h1, if_true]
    linarith
  · intro h2
    simp only [OfferToken.derive, h2, Bool.false_eq_true, if_false]
    exact hap
  · intro h1 h2
    left
    simp only [OfferToken.derive, h1, h2, Bool.false_eq_true, if_true,
      if_false]
    linarith

/-- Witness for C9 at a concrete bid (price 9000) and ask (price 9200). -/
theorem token_side_and_separation_witness :
    ((OfferToken.derive (BuyOffer 1 9000) 0).is_bid =
      (BuyOffer 1 9000).is_bid) ∧
    ((OfferToken.derive (SellOffer 1 9200) 1).is_bid =
      (SellOffer 1 9200).is_bid) ∧
    ((BuyOffer 1 9000).is_bid = true →
      (OfferToken.derive (BuyOffer 1 9000) 0).price < 0) ∧
    ((SellOffer 1 9200).is_bid = false →
      0 < (OfferToken.derive (SellOffer 1 9200) 1).price) ∧
    ((BuyOffer 1 9000).is_bid = true → (SellOffer 1 9200).is_bid = false →
      tokLt (OfferToken.derive (BuyOffer 1 9000) 0)
        (OfferToken.derive (SellOffer 1 9200) 1)) :=
  token_side_and_separation (BuyOffer 1 9000) (SellOffer 1 9200) 0 1
    (by decide) (by decide) (by decide) (by decide)

/-- The spec's reference semantics for bulk admission: calling `add`
for each offer in list order, collecting the returned tokens
positionally (§4.2 of the spec: equivalent in net effect to calling
add for each offer in order). -/
def Orderbook.addEach (s : Orderbook) (c : Nat) :
    List Offer → List OfferToken × Orderbook × Nat
  | [] => ([], s, c)
  | o :: os =>
    let r := s.add c o
    let rest := r.2.1.addEach r.2.2 os
    (r.1 :: rest.1, rest.2)

/-- Claim C4: `add_many` returns a token list positionally matching its
input offers and produces exactly the state (and counter) of calling
`add` on each offer in list order from the same starting state. -/
theorem add_many_eq_addEach (s : Orderbook) (c : Nat) (offers : List Offer) :
    s.add_many c offers = s.addEach c offers := by
  induction offers generalizing s c with
  | nil => rfl
  | cons o os ih =>
    simp only [Orderbook.addEach]
    rw [← ih]
    unfold Orderbook.add_many Orderbook.add
    cases hb : o.is_bid with
    | true =>
      simp only [tokenize, hb, if_true, List.map_cons, List.filter_cons,
        Bool.not_true, List.length_cons]
      refine Prod.ext rfl (Prod.ext ?_ ?_)
      · simp [updateMap_cons]
      · simp only []
        omega
    | false =>
      simp only [tokenize, hb, Bool.false_eq_true, if_false, List.map_cons,
        List.filter_cons, Bool.not_false, List.length_cons]
      refine Prod.ext rfl (Prod.ext ?_ ?_)
      · simp [updateMap_cons]
      · simp only []
        omega

lemma deleteSorted_filter {tok : OfferToken} {l l' : List (OfferToken × Offer)}
    (hp : l.Pairwise keyLt) (h : deleteSorted tok l = some l') :
    l' = l.filter (fun p => decide (p.1 ≠ tok)) := by
  rcases deleteSorted_eq_some h with ⟨v, l1, l2, he1, he2, hne⟩
  subst he1
  subst he2
  have h2 : ∀ p ∈ l2, p.1 ≠ tok := by
    intro p hpmem he
    rw [List.pairwise_append] at hp
    rcases hp with ⟨_, hp2, _⟩
    rcases List.pairwise_cons.mp hp2 with ⟨hta, _⟩
    have hlt : tokLt tok p.1 := hta p hpmem
    rw [he] at hlt
    exact tokLt_irrefl tok hlt
  rw [List.filter_append, List.filter_cons]
  have hfalse : (decide (((tok, v) : OfferToken × Offer).1 ≠ tok)) = false := by
    simp
  rw [hfalse]
  simp only [Bool.false_eq_true, if_false]
  have hl1 : List.filter (fun p => decide (p.1 ≠ tok)) l1 = l1 :=
    List.filter_eq_self.mpr (fun p hp' => by simpa using hne p hp')
  have hl2 : List.filter (fun p => decide (p.1 ≠ tok)) l2 = l2 :=
    List.filter_eq_self.mpr (fun p hp' => by simpa using h2 p hp')
  rw [hl1, hl2]

/-- Claim C6: `remove(token)` deletes the entry for the token from
`bids` when the token is a bid, else from `asks`; it fails with the
distinguishable, catchable not-found condition (`KeyError`, modelled as
`none`) exactly when no entry for the token exists on that side, never
as a silent no-op.  In particular, add followed by remove of the
returned token on an otherwise-empty book restores the empty pre-add
state, and a second remove of that same token fails not-found. -/
theorem orderbook_remove_semantics :
    (∀ (s : Orderbook) (tok : OfferToken),
      (s.remove tok = none ↔
        lookupSorted tok (if tok.is_bid then s.bids else s.asks) = none)) ∧
    (∀ (s : Orderbook) (c : Nat) (tok : OfferToken) (s' : Orderbook),
      ReachOB s c → s.remove tok = some s' →
      s'.market = s.market ∧
      (tok.is_bid = true → s'.asks = s.asks ∧
        s'.bids = s.bids.filter (fun p => decide (p.1 ≠ tok))) ∧
      (tok.is_bid = false → s'.bids = s.bids ∧
        s'.asks = s.asks.filter (fun p => decide (p.1 ≠ tok)))) ∧
    (∀ (m : Market) (c : Nat) (o : Offer),
      0 < o.base_amount → 0 < o.counter_amount →
      ((Orderbook.init m).add c o).2.1.remove ((Orderbook.init m).add c o).1 =
        some (Orderbook.init m) ∧
      (Orderbook.init m).remove ((Orderbook.init m).add c o).1 = none) := by
  refine ⟨?_, ?_, ?_⟩
  · intro s tok
    unfold Orderbook.remove
    cases hb : tok.is_bid with
    | true =>
      simp only [if_true, Option.map_eq_none']
      exact deleteSorted_none_iff
    | false =>
      simp only [Bool.false_eq_true, if_false, Option.map_eq_none']
      exact deleteSorted_none_iff
  · intro s c tok s' hr hrem
    obtain ⟨hpb, hpa, _, _⟩ := reachOB_inv hr
    unfold Orderbook.remove at hrem
    cases hb : tok.is_bid with
    | true =>
      rw [hb] at hrem
      simp only [if_true] at hrem
      rcases Option.map_eq_some'.mp hrem with ⟨b', hdel, he⟩
      subst he
      refine ⟨rfl, fun _ => ⟨rfl, deleteSorted_filter hpb hdel⟩,
        fun hc => by simp at hc⟩
    | false =>
      rw [hb] at hrem
      simp only [Bool.false_eq_true, if_false] at hrem
      rcases Option.map_eq_some'.mp hrem with ⟨a', hdel, he⟩
      subst he
      refine ⟨rfl, fun hc => by simp at hc,
        fun _ => ⟨rfl, deleteSorted_filter hpa hdel⟩⟩
  · intro m c o h1 h2
    have hp := o.price_pos h1 h2
    cases hbid : o.is_bid with
    | true =>
      have htok : (OfferToken.derive o c).is_bid = true := by
        simp only [OfferToken.derive, OfferToken.is_bid, hbid, if_true,
          decide_eq_true_eq]
        linarith
      constructor
      · simp [Orderbook.add, hbid, Orderbook.remove, htok, deleteSorted,
          Orderbook.init]
      · simp [Orderbook.add, hbid, Orderbook.remove, htok, deleteSorted,
          Orderbook.init]
    | false =>
      have htok : (OfferToken.derive o c).is_bid = false := by
        simp only [OfferToken.derive, OfferToken.is_bid, hbid,
          Bool.false_eq_true, if_false, decide_eq_false_iff_not, not_lt]
        linarith
      constructor
      · simp [Orderbook.add, hbid, Orderbook.remove, htok, deleteSorted,
          Orderbook.init]
      · simp [Orderbook.add, hbid, Orderbook.remove, htok, deleteSorted,
          Orderbook.init]

/-- Witness for C6: the add/remove round trip on an empty BTC/USD book
with a concrete bid offer. -/
theorem orderbook_remove_semantics_witness :
    ((Orderbook.init ⟨⟨"BTC", ""⟩, ⟨"USD", ""⟩⟩).add 0 (BuyOffer 1 9000)).2.1.remove
        ((Orderbook.init ⟨⟨"BTC", ""⟩, ⟨"USD", ""⟩⟩).add 0 (BuyOffer 1 9000)).1 =
      some (Orderbook.init ⟨⟨"BTC", ""⟩, ⟨"USD", ""⟩⟩) ∧
    (Orderbook.init ⟨⟨"BTC", ""⟩, ⟨"USD", ""⟩⟩).remove
        ((Orderbook.init ⟨⟨"BTC", ""⟩, ⟨"USD", ""⟩⟩).add 0 (BuyOffer 1 9000)).1 =
      none :=
  orderbook_remove_semantics.2.2 ⟨⟨"BTC", ""⟩, ⟨"USD", ""⟩⟩ 0 (BuyOffer 1 9000)
    (by decide) (by decide)

/-- Claim C8: every operation of the order book and the trade history
either fully succeeds or fails leaving the state untouched.  `clear`,
`add`, `add_many` and `last` are total functions of the state in this
embedding (they always fully succeed, and `last` performs no mutation);
the two fallible operations are the removals, and each either fails
(`none`, the raised error, with no successor state produced) or
succeeds producing a state that differs from the input by exactly the
deletion of one entry, with the market and the untouched side equal. -/
theorem operations_atomic :
    (∀ (s : Orderbook) (tok : OfferToken),
      s.remove tok = none ∨
      ∃ s', s.remove tok = some s' ∧ s'.market = s.market ∧
        ((tok.is_bid = true ∧ s'.asks = s.asks ∧
          ∃ v l1 l2, s.bids = l1 ++ (tok, v) :: l2 ∧ s'.bids = l1 ++ l2) ∨
         (tok.is_bid = false ∧ s'.bids = s.bids ∧
          ∃ v l1 l2, s.asks = l1 ++ (tok, v) :: l2 ∧ s'.asks = l1 ++ l2))) ∧
    (∀ (h : History) (tr : Trade),
      h.remove tr = none ∨
      ∃ h', h.remove tr = some h' ∧ h'.market = h.market ∧
        ∃ l1 l2, h.trades = l1 ++ tr :: l2 ∧ h'.trades = l1 ++ l2) := by
  constructor
  · intro s tok
    cases hrem : s.remove tok with
    | none => exact Or.inl rfl
    | some s' =>
      refine Or.inr ⟨s', rfl, ?_⟩
      unfold Orderbook.remove at hrem
      cases hb : tok.is_bid with
      | true =>
        rw [hb] at hrem
        simp only [if_true] at hrem
        rcases Option.map_eq_some'.mp hrem with ⟨b', hdel, he⟩
        rcases deleteSorted_eq_some hdel with ⟨v, l1, l2, he1, he2, _⟩
        subst he
        exact ⟨rfl, Or.inl ⟨rfl, rfl, v, l1, l2, he1, he2⟩⟩
      | false =>
        rw [hb] at hrem
        simp only [Bool.false_eq_true, if_false] at hrem
        rcases Option.map_eq_some'.mp hrem with ⟨a', hdel, he⟩
        rcases deleteSorted_eq_some hdel with ⟨v, l1, l2, he1, he2, _⟩
        subst he
        exact ⟨rfl, Or.inr ⟨rfl, rfl, v, l1, l2, he1, he2⟩⟩
  · intro h tr
    cases hrem : h.remove tr with
    | none => exact Or.inl rfl
    | some h' =>
      refine Or.inr ⟨h', rfl, ?_⟩
      unfold History.remove at hrem
      rcases Option.map_eq_some'.mp hrem with ⟨l', hdel, he⟩
      rcases removeFirstTrade_eq_some hdel with ⟨l1, l2, he1, he2⟩
      subst he
      exact ⟨rfl, l1, l2, he1, he2⟩

lemma History.add_many_market (trs : List Trade) :
    ∀ (h : History), (h.add_many trs).market = h.market := by
  induction trs with
  | nil => intro h; rfl
  | cons t rest ih => intro h; exact ih (h.add t)

lemma History.add_many_swap_market (trs : List Trade) :
    ∀ (h : History) (m : Market),
    ({ h with market := m } : History).add_many trs =
      { h.add_many trs with market := m } := by
  induction trs with
  | nil => intro h m; rfl
  | cons t rest ih =>
    intro h m
    show (({ h with market := m } : History).add t).add_many rest = _
    have : ({ h with market := m } : History).add t =
        { h.add t with market := m } := rfl
    rw [this]
    exact ih (h.add t) m

/-- Claim C10: every order-book and history operation leaves the
object's `market` field unchanged, and the admissions never inspect the
market: the tokens and maps produced by add/add_many (and the result of
`last`) are identical whatever market the object carries.  Offers and
trades themselves carry no market field at all in the source, so no
validation against the object's market is even expressible. -/
theorem market_frame :
    (∀ (s : Orderbook), s.clear.market = s.market) ∧
    (∀ (s : Orderbook) (c : Nat) (o : Offer),
      (s.add c o).2.1.market = s.market) ∧
    (∀ (s : Orderbook) (c : Nat) (offers : List Offer),
      (s.add_many c offers).2.1.market = s.market) ∧
    (∀ (s : Orderbook) (tok : OfferToken) (s' : Orderbook),
      s.remove tok = some s' → s'.market = s.market) ∧
    (∀ (s : Orderbook) (m : Market) (c : Nat) (o : Offer),
      ({ s with market := m } : Orderbook).add c o =
        ((s.add c o).1, { (s.add c o).2.1 with market := m },
         (s.add c o).2.2)) ∧
    (∀ (s : Orderbook) (m : Market) (c : Nat) (offers : List Offer),
      ({ s with market := m } : Orderbook).add_many c offers =
        ((s.add_many c offers).1,
         { (s.add_many c offers).2.1 with market := m },
         (s.add_many c offers).2.2)) ∧
    (∀ (h : History), h.clear.market = h.market) ∧
    (∀ (h : History) (tr : Trade), (h.add tr).market = h.market) ∧
    (∀ (h : History) (trs : List Trade), (h.add_many trs).market = h.market) ∧
    (∀ (h : History) (tr : Trade) (h' : History),
      h.remove tr = some h' → h'.market = h.market) ∧
    (∀ (h : History) (m : Market) (tr : Trade),
      ({ h with market := m } : History).add tr =
        { h.add tr with market := m }) ∧
    (∀ (h : History) (m : Market) (trs : List Trade),
      ({ h with market := m } : History).add_many trs =
        { h.add_many trs with market := m }) ∧
    (∀ (h : History) (m : Market),
      ({ h with market := m } : History).last = h.last) := by
  refine ⟨fun s => rfl, ?_, fun s c offers => rfl, ?_, ?_, fun s m c offers => rfl,
    fun h => rfl, fun h tr => rfl, fun h trs => History.add_many_market trs h,
    ?_, fun h m tr => rfl, fun h m trs => History.add_many_swap_market trs h m,
    fun h m => rfl⟩
  · intro s c o
    unfold Orderbook.add
    cases hb : o.is_bid with
    | true => simp only [if_true]
    | false => simp only [Bool.false_eq_true, if_false]
  · intro s tok s' hrem
    unfold Orderbook.remove at hrem
    split_ifs at hrem
    · rcases Option.map_eq_some'.mp hrem with ⟨b', _, he⟩
      rw [← he]
    · rcases Option.map_eq_some'.mp hrem with ⟨a', _, he⟩
      rw [← he]
  · intro s m c o
    unfold Orderbook.add
    cases hb : o.is_bid with
    | true => simp only [if_true]
    | false => simp only [Bool.false_eq_true, if_false]
  · intro h tr h' hrem
    unfold History.remove at hrem
    rcases Option.map_eq_some'.mp hrem with ⟨l', _, he⟩
    rw [← he]

/-- Witness for C10: the history-remove frame conjunct at a concrete
one-trade history. -/
theorem market_frame_witness :
    (History.init ⟨⟨"BTC", ""⟩, ⟨"USD", ""⟩⟩).market =
      ((History.init ⟨⟨"BTC", ""⟩, ⟨"USD", ""⟩⟩).add ⟨0, BuyOffer 1 1⟩).market :=
  market_frame.2.2.2.2.2.2.2.2.2.1
    ((History.init ⟨⟨"BTC", ""⟩, ⟨"USD", ""⟩⟩).add ⟨0, BuyOffer 1 1⟩)
    ⟨0, BuyOffer 1 1⟩ (History.init ⟨⟨"BTC", ""⟩, ⟨"USD", ""⟩⟩) (by decide)

/-- Claim C7: for positive base_amount and positive price, constructing
an offer via from_price (counter_amount = base_amount * price under the
8-significant-digit decimal context) and reading back the derived price
(counter_amount / base_amount, also context-rounded) returns the
original price within the configured precision of 8 significant digits:
the two context roundings move the result by at most 1.1 units in the
8th significant digit (relative error at most 11/10^8, where one unit
in the last of 8 significant digits is at least 10^-8 relative). -/
theorem from_price_round_trip (b : Bool) (ba p : Rat)
    (hba : 0 < ba) (hp : 0 < p) :
    |(Offer.from_price b ba p).price - p| ≤ p * (11 / 10 ^ 8) := by
  have hprice : (Offer.from_price b ba p).price =
      round8 (round8 (ba * p) / ba) := rfl
  rw [hprice]
  set cQ := round8 (ba * p) with hc
  have hbp : 0 < ba * p := mul_pos hba hp
  have h1 : |cQ - ba * p| ≤ ba * p / 20000000 := round8_sub_le _ hbp
  have hcpos : 0 < cQ := round8_pos _ hbp
  have hquot : 0 < cQ / ba := div_pos hcpos hba
  have h2 : |round8 (cQ / ba) - cQ / ba| ≤ cQ / ba / 20000000 :=
    round8_sub_le _ hquot
  have h3 : |cQ / ba - p| ≤ p / 20000000 := by
    have hdiff : cQ / ba - p = (cQ - ba * p) / ba := by
      field_simp
    rw [hdiff, abs_div, abs_of_pos hba, div_le_iff₀ hba]
    calc |cQ - ba * p| ≤ ba * p / 20000000 := h1
      _ = p / 20000000 * ba := by ring
  have h4 : cQ / ba ≤ p * (20000001 / 20000000) := by
    have hh := (abs_le.mp h3).2
    linarith
  have h5 : |round8 (cQ / ba) - cQ / ba| ≤
      p * (20000001 / 20000000) / 20000000 := by
    refine le_trans h2 ?_
    linarith
  calc |round8 (cQ / ba) - p|
      ≤ |round8 (cQ / ba) - cQ / ba| + |cQ / ba - p| := abs_sub_le _ _ _
    _ ≤ p * (20000001 / 20000000) / 20000000 + p / 20000000 :=
        add_le_add h5 h3
    _ ≤ p * (11 / 10 ^ 8) := by linarith

/-- Witness for C7 at base 1 and price 9000. -/
theorem from_price_round_trip_witness :
    |(Offer.from_price true 1 9000).price - 9000| ≤ 9000 * (11 / 10 ^ 8) :=
  from_price_round_trip true 1 9000 (by norm_num) (by norm_num)
